import Mathlib

/-!
Verification of the markdown section-extraction and filtering macros of
`main.py` (a MkDocs macro module): `include_file_sections` and
`downshift_md_heading`, together with the two pre-compiled regular
expressions `MD_HEADING_REGEX = ^(#{1,6})\s+(.*)` and
`MD_LINK_DEF_REGEX = ^(\[[^\]]+\]):\s*(.+)$` (both `re.MULTILINE`).

Python strings are embedded as `List Char`.  The two regular expressions are
embedded as explicit anchored matchers (`matchHeadingAt`, `matchLinkDefAt`)
together with scanners that try them at every line start, mirroring the
left-to-right non-overlapping scan of `re.split`, `re.sub` and `re.findall`.
Character classes (`\s`, `str.lower`, `str.strip`) are modelled on the ASCII
range; Python additionally treats some non-ASCII code points as whitespace or
case-mapped, which no claim exercises.

The file-reading step `include_file` (which produces the `content` string) is
an out-of-scope collaborator per the specification; `include_file_sections`
is modelled as the pure transform it applies to that content string, and the
`ValueError` it raises on conflicting filters is modelled with `Except`,
carrying the offending lower-cased titles.
-/

/-- Whitespace test modelling Python's `\s` / `str.strip` on the ASCII range:
space, tab, newline, carriage return, vertical tab, form feed. -/
def isWS (c : Char) : Bool :=
  c == ' ' || c == '\t' || c == '\n' || c == '\r' || c == '\x0b' || c == '\x0c'

/-- Python `str.lower`, modelled on the ASCII range via `Char.toLower`. -/
def strLower (s : List Char) : List Char := s.map Char.toLower

/-- Python `str.strip()`: remove whitespace from both ends. -/
def strip (s : List Char) : List Char :=
  ((s.dropWhile isWS).reverse.dropWhile isWS).reverse

/-- Python `sep.join(parts)`. -/
def pyJoin (sep : List Char) : List (List Char) → List Char
  | [] => []
  | [x] => x
  | x :: y :: rest => x ++ sep ++ pyJoin sep (y :: rest)

/-- Split a text into its lines at `'\n'` (the lines do not contain the
separator; `n` newlines yield `n+1` lines). -/
def splitLines : List Char → List (List Char)
  | [] => [[]]
  | c :: rest =>
    if c = '\n' then [] :: splitLines rest
    else
      match splitLines rest with
      | [] => [[c]]
      | l :: ls => (c :: l) :: ls

/-- The pattern `x` occurs contiguously inside `s`. -/
def occursIn (x s : List Char) : Prop := ∃ u v, s = u ++ x ++ v

/-- One anchored attempt of `MD_HEADING_REGEX = ^(#{1,6})\s+(.*)` at a
line-start position.  `#{1,6}` greedily takes the leading run of `#` (seven
or more `#` can never match, because backtracking always leaves a `#`, not
whitespace, as the next character); `\s+` greedily takes the following run of
whitespace, which in Python may include newlines; `(.*)` then runs to the
next newline or the end.  Returns `(hashes, title, rest-after-match)`. -/
def matchHeadingAt (s : List Char) : Option (List Char × List Char × List Char) :=
  if 1 ≤ (s.takeWhile (· = '#')).length ∧ (s.takeWhile (· = '#')).length ≤ 6 then
    match s.drop (s.takeWhile (· = '#')).length with
    | [] => none
    | c :: _ =>
      if isWS c then
        some (s.takeWhile (· = '#'),
          ((s.drop (s.takeWhile (· = '#')).length).dropWhile isWS).takeWhile (· ≠ '\n'),
          ((s.drop (s.takeWhile (· = '#')).length).dropWhile isWS).dropWhile (· ≠ '\n'))
      else none
  else none

/-- Fuel-indexed scanner mirroring `re.split(MD_HEADING_REGEX, content)`:
attempt the anchored heading pattern at every line start, keeping the text
between matches.  Returns the text before the first match (the dropped
preamble) and, per match, the two captured groups plus the text between the
match and the next one.  The fuel only bounds recursion depth; it is at least
the remaining text length at every call reached from `headingSplit`. -/
def headingSplitAux : Nat → List Char → Bool → List Char × List (List Char × List Char × List Char)
  | 0, s, _ => (s, [])
  | _ + 1, [], _ => ([], [])
  | fuel + 1, c :: rest, bol =>
    if bol then
      match matchHeadingAt (c :: rest) with
      | some (h, t, after) =>
        let p := headingSplitAux fuel after false
        ([], (h, t, p.1) :: p.2)
      | none =>
        let p := headingSplitAux fuel rest (c = '\n')
        (c :: p.1, p.2)
    else
      let p := headingSplitAux fuel rest (c = '\n')
      (c :: p.1, p.2)

/-- The split `re.split(MD_HEADING_REGEX, content)`: preamble and `(hashes, title,
between)` triples, scanning from the start of the text (a line start). -/
def headingSplit (content : List Char) : List Char × List (List Char × List Char × List Char) :=
  headingSplitAux content.length content true

/-- The parsed sections of `include_file_sections`:
`(lvl, title.strip(), body.strip())` for each regex-split triple. -/
def sections (content : List Char) : List (List Char × List Char × List Char) :=
  (headingSplit content).2.map (fun s => (s.1, strip s.2.1, strip s.2.2))

/-- One anchored attempt of `MD_LINK_DEF_REGEX = ^(\[[^\]]+\]):\s*(.+)$`
at a line-start position.  the character class `[^\]]+` greedily runs to the first `]` (and may
cross newlines); then `]:` must follow literally; `\s*` greedily takes
whitespace (possibly crossing newlines); `(.+)` needs at least one
non-newline character, after which `$` holds since the run is maximal.  When
`\s*` reaches the end of the text, the engine backtracks one whitespace
character at a time until `(.+)$` can match, which first succeeds at the last
non-newline character of the whitespace run.  Returns
`(label-with-brackets, target, rest-after-match)`. -/
def matchLinkDefAt (s : List Char) : Option (List Char × List Char × List Char) :=
  match s with
  | '[' :: rest =>
    match rest.takeWhile (· ≠ ']'), rest.dropWhile (· ≠ ']') with
    | inner@(_ :: _), ']' :: ':' :: r2 =>
      match r2.dropWhile isWS with
      | q@(_ :: _) =>
        some ('[' :: inner ++ [']'], q.takeWhile (· ≠ '\n'), q.dropWhile (· ≠ '\n'))
      | [] =>
        match r2.reverse.dropWhile (· = '\n') with
        | [] => none
        | ch :: _ => some ('[' :: inner ++ [']'], [ch], (r2.reverse.takeWhile (· = '\n')).reverse)
    | _, _ => none
  | _ => none

/-- Fuel-indexed scanner mirroring `MD_LINK_DEF_REGEX.findall(content)`:
attempt the anchored pattern at every line start, collecting the two captured
groups of each non-overlapping match from left to right. -/
def linkDefsAux : Nat → List Char → Bool → List (List Char × List Char)
  | 0, _, _ => []
  | _ + 1, [], _ => []
  | fuel + 1, c :: rest, bol =>
    if bol then
      match matchLinkDefAt (c :: rest) with
      | some (lbl, tgt, after) => (lbl, tgt) :: linkDefsAux fuel after false
      | none => linkDefsAux fuel rest (c = '\n')
    else linkDefsAux fuel rest (c = '\n')

/-- The scan `MD_LINK_DEF_REGEX.findall(content)`: the collected
`(label, target)` pairs in scan order. -/
def linkDefs (content : List Char) : List (List Char × List Char) :=
  linkDefsAux content.length content true

/-- Fuel-indexed scanner mirroring `MD_HEADING_REGEX.sub(repl, md)` with
`repl(m) = ('#' if len(hashes) < 6 else '') + hashes + ' ' + title`:
unmatched text is copied, each match is replaced. -/
def downshiftAux : Nat → List Char → Bool → List Char
  | 0, s, _ => s
  | _ + 1, [], _ => []
  | fuel + 1, c :: rest, bol =>
    if bol then
      match matchHeadingAt (c :: rest) with
      | some (h, t, after) =>
        (if h.length < 6 then '#' :: h else h) ++ ' ' :: t ++ downshiftAux fuel after false
      | none => c :: downshiftAux fuel rest (c = '\n')
    else c :: downshiftAux fuel rest (c = '\n')

/-- The function `downshift_md_heading(md)`: increase all headings by one level
(for example `#` to `##`), up to six. -/
def downshift_md_heading (md : List Char) : List Char :=
  downshiftAux md.length md true

/-- Rendering of one kept section: `f"{lvl} {title}\n\n{body}"`. -/
def renderSection (s : List Char × List Char × List Char) : List Char :=
  s.1 ++ ' ' :: s.2.1 ++ '\n' :: '\n' :: s.2.2

/-- Rendering of one re-appended link definition: `f"{lbl}: {href}"`. -/
def renderLinkDef (p : List Char × List Char) : List Char :=
  p.1 ++ ':' :: ' ' :: p.2

/-- The sections that survive the filter loop of `include_file_sections`:
keep a section when `(not inc or tkey in inc) and tkey not in exc` where
`tkey = title.lower()` and `inc`, `exc` are the lower-cased filter lists
viewed as sets (membership is equality-based, as for Python `set`). -/
def keptSections (content : List Char) (include_sections exclude_sections : List (List Char)) :
    List (List Char × List Char × List Char) :=
  (sections content).filter (fun s =>
    (decide (include_sections.map strLower = [])
        || decide (strLower s.2.1 ∈ include_sections.map strLower))
      && !decide (strLower s.2.1 ∈ exclude_sections.map strLower))

/-- The macro `include_file_sections(filename, include_sections,
exclude_sections)` applied to the content string returned by the (out of
scope) `include_file` step: collect the link definitions, split into
sections, fail on a filter conflict naming the offending lower-cased titles,
otherwise render the kept sections followed by the link definitions, joined
by blank lines. -/
def include_file_sections (content : List Char)
    (include_sections exclude_sections : List (List Char)) :
    Except (List (List Char)) (List Char) :=
  if (include_sections.map strLower).filter
      (fun t => decide (t ∈ exclude_sections.map strLower)) = [] then
    Except.ok (pyJoin ['\n', '\n']
      ((keptSections content include_sections exclude_sections).map renderSection
        ++ (linkDefs content).map renderLinkDef))
  else
    Except.error ((include_sections.map strLower).filter
      (fun t => decide (t ∈ exclude_sections.map strLower)))

/-! Line-based reference definitions, written from the specification's
line-level description of the component ("heading line", "body = all text
after the heading line up to the next heading line of any level", "a
link-reference definition is a line of the form `[label]: target`").  They
are compared with the regex-scan implementation above; the two disagree
exactly when a greedy whitespace run of the pattern crosses a line break. -/

/-- Length of the leading run of `#` of a line. -/
def hashRun (L : List Char) : Nat := (L.takeWhile (· = '#')).length

/-- A heading line per the specification: one to six `#`, then a whitespace
character, then the (possibly empty) title remainder, all on one line. -/
def lineIsHeading (L : List Char) : Bool :=
  decide (1 ≤ hashRun L) && decide (hashRun L ≤ 6) &&
    (match L.drop (hashRun L) with
     | c :: _ => isWS c
     | [] => false)

/-- A line of one to six `#` followed by nothing but whitespace.  On such a
line the heading pattern's `\s+` reaches the end of the line and (in
Python's multiline semantics) continues onto the following lines. -/
def badLine (L : List Char) : Bool :=
  decide (1 ≤ hashRun L) && decide (hashRun L ≤ 6) && (L.drop (hashRun L)).all isWS

/-- A single line matching the link-definition pattern
`^(\[[^\x7d\]]+\]):\s*(.+)$` on its own: `[`, at least one non-`]`
character, `]:`, and at least one further character (when everything after
the colon is whitespace the backtracking `\s*`/`(.+)` split still matches
inside it). -/
def lineIsLinkDef (L : List Char) : Bool :=
  match L with
  | '[' :: rest =>
    match rest.takeWhile (· ≠ ']'), rest.dropWhile (· ≠ ']') with
    | _ :: _, ']' :: ':' :: _ :: _ => true
    | _, _ => false
  | _ => false

/-- Modelled from the spec: the sections of a document as its line-level
description has them — each heading line opens a section whose level is its
`#`-count, whose title is the trimmed remainder of that same line, and whose
body is all text (here: all lines, rejoined) up to the next heading line of
any level or the end; the preamble is discarded and title and body are
stripped as in the implementation and the spec's examples. -/
def specSecAux : Nat → List (List Char) → List (List Char × List Char × List Char)
  | 0, _ => []
  | _ + 1, [] => []
  | fuel + 1, L :: rest =>
    if lineIsHeading L then
      (List.replicate (hashRun L) '#',
       strip (L.drop (hashRun L)),
       strip (pyJoin ['\n'] (rest.takeWhile (fun M => !lineIsHeading M))))
        :: specSecAux fuel (rest.dropWhile (fun M => !lineIsHeading M))
    else specSecAux fuel rest

/-- The line-based section list of a document (reference definition for the
specification's description; compare `sections`). -/
def specSections (content : List Char) : List (List Char × List Char × List Char) :=
  specSecAux (splitLines content).length (splitLines content)

/-- Length-indexed view of the heading scanner: the scan of the remaining
text `s`, where `b` records whether the current position is a line start. -/
def headingScan (s : List Char) (b : Bool) : List Char × List (List Char × List Char × List Char) :=
  headingSplitAux s.length s b

/-- Length-indexed view of the heading-replacement scanner of
`downshift_md_heading`. -/
def downshiftScan (s : List Char) (b : Bool) : List Char :=
  downshiftAux s.length s b

/-- The line-based section extractor of `specSections`, with adequate fuel. -/
def specScan (ls : List (List Char)) : List (List Char × List Char × List Char) :=
  specSecAux ls.length ls

/-- The keep condition of the specification at the propositional level:
keep a section iff (the inclusion list is empty or its lower-cased title is
among the lower-cased inclusion titles) and its lower-cased title is not
among the lower-cased exclusion titles. -/
def keepSpec (incl excl : List (List Char)) (title : List Char) : Prop :=
  (incl = [] ∨ strLower title ∈ incl.map strLower) ∧ strLower title ∉ excl.map strLower

instance keepSpecDec (incl excl : List (List Char)) (t : List Char) :
    Decidable (keepSpec incl excl t) :=
  inferInstanceAs (Decidable ((incl = [] ∨ strLower t ∈ incl.map strLower) ∧
    strLower t ∉ excl.map strLower))

/-! General list facts used throughout. -/

theorem dropWhile_length_le {p : α → Bool} : ∀ l : List α, (l.dropWhile p).length ≤ l.length
  | [] => Nat.le_refl _
  | a :: l => by
    rw [List.dropWhile_cons]
    split
    · exact Nat.le_succ_of_le (dropWhile_length_le l)
    · exact Nat.le_refl _

theorem takeWhile_length_le {p : α → Bool} : ∀ l : List α, (l.takeWhile p).length ≤ l.length
  | [] => Nat.le_refl _
  | a :: l => by
    rw [List.takeWhile_cons]
    split
    · exact Nat.succ_le_succ (takeWhile_length_le l)
    · exact Nat.zero_le _

theorem dropWhile_self_eq {p : α → Bool} (l : List α) :
    (l.dropWhile p).dropWhile p = l.dropWhile p := by
  induction l with
  | nil => rfl
  | cons a l ih =>
    rw [List.dropWhile_cons]
    split
    · exact ih
    · rw [List.dropWhile_cons_of_neg (by assumption)]

theorem takeWhile_eq_self_of_all {p : α → Bool} {l : List α} (h : ∀ a ∈ l, p a) :
    l.takeWhile p = l := by
  induction l with
  | nil => rfl
  | cons a l ih =>
    rw [List.takeWhile_cons_of_pos (h a (by simp))]
    rw [ih (fun b hb => h b (by simp [hb]))]

/-! Facts about the two anchored matchers. -/

theorem matchHeadingAt_nil : matchHeadingAt [] = none := rfl

theorem matchHeadingAt_length {s h t a : List Char} (hm : matchHeadingAt s = some (h, t, a)) :
    a.length < s.length := by
  unfold matchHeadingAt at hm
  split at hm
  · next hn =>
    split at hm
    · exact absurd hm (by simp)
    · next c cs hdrop =>
      split at hm
      · simp only [Option.some.injEq, Prod.mk.injEq] at hm
        have ha : a = ((s.drop (s.takeWhile (· = '#')).length).dropWhile isWS).dropWhile (· ≠ '\n') :=
          hm.2.2.symm
        have h1 : a.length ≤ ((s.drop (s.takeWhile (· = '#')).length).dropWhile isWS).length :=
          ha ▸ dropWhile_length_le _
        have h2 := dropWhile_length_le (p := isWS) (s.drop (s.takeWhile (· = '#')).length)
        have h3 : (s.drop (s.takeWhile (· = '#')).length).length < s.length := by
          rw [List.length_drop]
          have hpos : 0 < s.length := by
            cases s with
            | nil => simp at hdrop
            | cons x xs => simp
          omega
        omega
      · exact absurd hm (by simp)
  · exact absurd hm (by simp)

theorem matchLinkDefAt_nil : matchLinkDefAt [] = none := rfl

theorem matchLinkDefAt_length {s l t a : List Char} (hm : matchLinkDefAt s = some (l, t, a)) :
    a.length < s.length := by
  unfold matchLinkDefAt at hm
  split at hm
  · next rest =>
    split at hm
    · next inner x xs r2 hinner hdrop =>
      have hr2 : r2.length + 2 ≤ rest.length := by
        have := dropWhile_length_le (p := fun c => decide (c ≠ ']')) rest
        rw [hdrop] at this
        simp at this
        omega
      split at hm
      · next q hq =>
        simp only [Option.some.injEq, Prod.mk.injEq] at hm
        have ha : a = (r2.dropWhile isWS).dropWhile (· ≠ '\n') := by
          rw [← hm.2.2, hq]
        have : a.length ≤ r2.length := by
          rw [ha]
          exact Nat.le_trans (dropWhile_length_le _) (dropWhile_length_le _)
        simp only [List.length_cons]
        omega
      · split at hm
        · exact absurd hm (by simp)
        · simp only [Option.some.injEq, Prod.mk.injEq] at hm
          have ha : a = (r2.reverse.takeWhile (· = '\n')).reverse := hm.2.2.symm
          have : a.length ≤ r2.length := by
            rw [ha, List.length_reverse]
            exact Nat.le_trans (takeWhile_length_le _) (by rw [List.length_reverse])
          simp only [List.length_cons]
          omega
    · exact absurd hm (by simp)
  · exact absurd hm (by simp)

/-! Fuel irrelevance: each scanner consumes at least one character per step,
so any fuel at least the text length gives the same (total) result. -/

theorem headingSplitAux_nil : ∀ f b, headingSplitAux f [] b = ([], [])
  | 0, _ => rfl
  | _ + 1, _ => rfl

theorem headingSplitAux_fuel : ∀ f₁ f₂ : Nat, ∀ s : List Char, ∀ b : Bool,
    s.length ≤ f₁ → s.length ≤ f₂ → headingSplitAux f₁ s b = headingSplitAux f₂ s b := by
  intro f₁
  induction f₁ with
  | zero =>
    intro f₂ s b h1 _
    have : s = [] := by
      cases s with
      | nil => rfl
      | cons c r => simp at h1
    subst this
    rw [headingSplitAux_nil, headingSplitAux_nil]
  | succ f ih =>
    intro f₂ s b h1 h2
    cases s with
    | nil => rw [headingSplitAux_nil, headingSplitAux_nil]
    | cons c rest =>
      cases f₂ with
      | zero => simp at h2
      | succ g =>
        show headingSplitAux (f + 1) (c :: rest) b = headingSplitAux (g + 1) (c :: rest) b
        unfold headingSplitAux
        simp only [List.length_cons] at h1 h2
        have hr1 : rest.length ≤ f := by omega
        have hr2 : rest.length ≤ g := by omega
        split
        · split
          · next h t a hm =>
            have hl := matchHeadingAt_length hm
            simp only [List.length_cons] at hl
            rw [ih g a false (by omega) (by omega)]
          · rw [ih g rest _ hr1 hr2]
        · rw [ih g rest _ hr1 hr2]

theorem linkDefsAux_nil : ∀ f b, linkDefsAux f [] b = []
  | 0, _ => rfl
  | _ + 1, _ => rfl

theorem linkDefsAux_fuel : ∀ f₁ f₂ : Nat, ∀ s : List Char, ∀ b : Bool,
    s.length ≤ f₁ → s.length ≤ f₂ → linkDefsAux f₁ s b = linkDefsAux f₂ s b := by
  intro f₁
  induction f₁ with
  | zero =>
    intro f₂ s b h1 _
    have : s = [] := by
      cases s with
      | nil => rfl
      | cons c r => simp at h1
    subst this
    rw [linkDefsAux_nil, linkDefsAux_nil]
  | succ f ih =>
    intro f₂ s b h1 h2
    cases s with
    | nil => rw [linkDefsAux_nil, linkDefsAux_nil]
    | cons c rest =>
      cases f₂ with
      | zero => simp at h2
      | succ g =>
        show linkDefsAux (f + 1) (c :: rest) b = linkDefsAux (g + 1) (c :: rest) b
        unfold linkDefsAux
        simp only [List.length_cons] at h1 h2
        have hr1 : rest.length ≤ f := by omega
        have hr2 : rest.length ≤ g := by omega
        split
        · split
          · next l t a hm =>
            have hl := matchLinkDefAt_length hm
            simp only [List.length_cons] at hl
            rw [ih g a false (by omega) (by omega)]
          · rw [ih g rest _ hr1 hr2]
        · rw [ih g rest _ hr1 hr2]

theorem downshiftAux_nil : ∀ f b, downshiftAux f [] b = []
  | 0, _ => rfl
  | _ + 1, _ => rfl

theorem downshiftAux_fuel : ∀ f₁ f₂ : Nat, ∀ s : List Char, ∀ b : Bool,
    s.length ≤ f₁ → s.length ≤ f₂ → downshiftAux f₁ s b = downshiftAux f₂ s b := by
  intro f₁
  induction f₁ with
  | zero =>
    intro f₂ s b h1 _
    have : s = [] := by
      cases s with
      | nil => rfl
      | cons c r => simp at h1
    subst this
    rw [downshiftAux_nil, downshiftAux_nil]
  | succ f ih =>
    intro f₂ s b h1 h2
    cases s with
    | nil => rw [downshiftAux_nil, downshiftAux_nil]
    | cons c rest =>
      cases f₂ with
      | zero => simp at h2
      | succ g =>
        show downshiftAux (f + 1) (c :: rest) b = downshiftAux (g + 1) (c :: rest) b
        unfold downshiftAux
        simp only [List.length_cons] at h1 h2
        have hr1 : rest.length ≤ f := by omega
        have hr2 : rest.length ≤ g := by omega
        split
        · split
          · next h t a hm =>
            have hl := matchHeadingAt_length hm
            simp only [List.length_cons] at hl
            rw [ih g a false (by omega) (by omega)]
          · rw [ih g rest _ hr1 hr2]
        · rw [ih g rest _ hr1 hr2]

/-! Length-indexed views of the scanners, with their unfolding equations.
`headingScan s b` is the heading scan of the remaining text `s`, where `b`
records whether the current position is a line start. -/

theorem headingSplit_eq_scan (content : List Char) : headingSplit content = headingScan content true := rfl

theorem downshift_eq_scan (md : List Char) : downshift_md_heading md = downshiftScan md true := rfl

theorem headingScan_nil (b : Bool) : headingScan [] b = ([], []) := rfl

theorem headingScan_cons_false (c : Char) (rest : List Char) :
    headingScan (c :: rest) false =
      (c :: (headingScan rest (decide (c = '\n'))).1, (headingScan rest (decide (c = '\n'))).2) := rfl

theorem headingScan_cons_none {c : Char} {rest : List Char}
    (hm : matchHeadingAt (c :: rest) = none) :
    headingScan (c :: rest) true =
      (c :: (headingScan rest (decide (c = '\n'))).1, (headingScan rest (decide (c = '\n'))).2) := by
  show headingSplitAux (rest.length + 1) (c :: rest) true = _
  unfold headingSplitAux
  simp only [hm]
  rfl

theorem headingScan_cons_some {c : Char} {rest h t a : List Char}
    (hm : matchHeadingAt (c :: rest) = some (h, t, a)) :
    headingScan (c :: rest) true =
      ([], (h, t, (headingScan a false).1) :: (headingScan a false).2) := by
  show headingSplitAux (rest.length + 1) (c :: rest) true = _
  unfold headingSplitAux
  simp only [hm]
  have hl := matchHeadingAt_length hm
  simp only [List.length_cons] at hl
  rw [headingSplitAux_fuel rest.length a.length a false (by omega) (Nat.le_refl _)]
  rfl

theorem downshiftScan_nil (b : Bool) : downshiftScan [] b = [] := rfl

theorem downshiftScan_cons_false (c : Char) (rest : List Char) :
    downshiftScan (c :: rest) false = c :: downshiftScan rest (decide (c = '\n')) := rfl

theorem downshiftScan_cons_none {c : Char} {rest : List Char}
    (hm : matchHeadingAt (c :: rest) = none) :
    downshiftScan (c :: rest) true = c :: downshiftScan rest (decide (c = '\n')) := by
  show downshiftAux (rest.length + 1) (c :: rest) true = _
  unfold downshiftAux
  simp only [hm]
  rfl

theorem downshiftScan_cons_some {c : Char} {rest h t a : List Char}
    (hm : matchHeadingAt (c :: rest) = some (h, t, a)) :
    downshiftScan (c :: rest) true =
      (if h.length < 6 then '#' :: h else h) ++ ' ' :: t ++ downshiftScan a false := by
  show downshiftAux (rest.length + 1) (c :: rest) true = _
  unfold downshiftAux
  simp only [hm]
  have hl := matchHeadingAt_length hm
  simp only [List.length_cons] at hl
  rw [downshiftAux_fuel rest.length a.length a false (by omega) (Nat.le_refl _)]
  rfl

/-! Facts about `splitLines`, `pyJoin` and `strip`. -/

theorem pyJoin_cons {sep x : List Char} {ys : List (List Char)} (h : ys ≠ []) :
    pyJoin sep (x :: ys) = x ++ sep ++ pyJoin sep ys := by
  cases ys with
  | nil => exact absurd rfl h
  | cons y ys => simp [pyJoin]

theorem splitLines_ne_nil : ∀ s : List Char, splitLines s ≠ []
  | [] => by simp [splitLines]
  | c :: rest => by
    unfold splitLines
    split
    · simp
    · split <;> simp

theorem noNL_splitLines : ∀ s : List Char, ∀ L ∈ splitLines s, '\n' ∉ L
  | [] => by intro L hL; simp [splitLines] at hL; simp [hL]
  | c :: rest => by
    intro L hL
    unfold splitLines at hL
    split at hL
    · rcases List.mem_cons.mp hL with h | h
      · simp [h]
      · exact noNL_splitLines rest L h
    · next hc =>
      split at hL
      · next hsl => exact absurd hsl (splitLines_ne_nil rest)
      · next l ls hsl =>
        rcases List.mem_cons.mp hL with h | h
        · subst h
          intro hmem
          rcases List.mem_cons.mp hmem with h' | h'
          · exact hc h'.symm
          · exact noNL_splitLines rest l (hsl ▸ List.mem_cons_self l ls) h'
        · exact noNL_splitLines rest L (hsl ▸ List.mem_cons_of_mem l h)

theorem pyJoin_splitLines : ∀ s : List Char, pyJoin ['\n'] (splitLines s) = s
  | [] => rfl
  | c :: rest => by
    unfold splitLines
    split
    · next hc =>
      rw [pyJoin_cons (splitLines_ne_nil rest), pyJoin_splitLines rest]
      simp [hc]
    · next hc =>
      split
      · next hsl => exact absurd hsl (splitLines_ne_nil rest)
      · next l ls hsl =>
        cases ls with
        | nil =>
          have := pyJoin_splitLines rest
          rw [hsl] at this
          simp only [pyJoin] at this ⊢
          rw [this]
        | cons l2 ls' =>
          have := pyJoin_splitLines rest
          rw [hsl, pyJoin_cons (by simp)] at this
          rw [pyJoin_cons (by simp), ← this]
          simp

theorem dropWhile_all_nil {p : α → Bool} {l : List α} (h : ∀ a ∈ l, p a) :
    l.dropWhile p = [] := by
  induction l with
  | nil => rfl
  | cons a l ih =>
    rw [List.dropWhile_cons_of_pos (h a (by simp))]
    exact ih (fun b hb => h b (by simp [hb]))

theorem strip_ws_left {a s : List Char} (ha : ∀ c ∈ a, isWS c) :
    strip (a ++ s) = strip s := by
  unfold strip
  rw [List.dropWhile_append_of_pos ha]

theorem strip_ws_right {s b : List Char} (hb : ∀ c ∈ b, isWS c) :
    strip (s ++ b) = strip s := by
  unfold strip
  rw [List.dropWhile_append]
  split
  · next hemp =>
    rw [dropWhile_all_nil hb]
    have : s.dropWhile isWS = [] := by
      cases h : s.dropWhile isWS with
      | nil => rfl
      | cons x xs => rw [h] at hemp; simp at hemp
    rw [this]
  · rw [List.reverse_append]
    rw [List.dropWhile_append_of_pos (fun c hc => hb c (List.mem_reverse.mp hc))]

theorem strip_dropWhile (s : List Char) : strip (s.dropWhile isWS) = strip s := by
  unfold strip
  rw [dropWhile_self_eq]

/-! The anchored heading matcher at a line start, described line by line.
Throughout, `L` is the current line (no `'\n'` inside) and the text continues
with `'\n'` and further lines, or ends. -/

theorem takeWhile_eq_self_of_length {p : α → Bool} :
    ∀ {l : List α}, (l.takeWhile p).length = l.length → l.takeWhile p = l := by
  intro l
  induction l with
  | nil => intro _; rfl
  | cons a l ih =>
    intro h
    rw [List.takeWhile_cons] at h ⊢
    split at h
    · next hp => rw [if_pos hp]; simp only [List.length_cons, Nat.add_right_cancel_iff] at h; rw [ih h]
    · simp at h

theorem mem_of_mem_dropWhile {p : α → Bool} {a : α} :
    ∀ {l : List α}, a ∈ l.dropWhile p → a ∈ l := by
  intro l
  induction l with
  | nil => intro h; exact h
  | cons x l ih =>
    intro h
    rw [List.dropWhile_cons] at h
    split at h
    · exact List.mem_cons_of_mem x (ih h)
    · exact h

theorem all_of_dropWhile_nil {p : α → Bool} :
    ∀ {l : List α}, l.dropWhile p = [] → ∀ a ∈ l, p a := by
  intro l
  induction l with
  | nil => intro _ a ha; simp at ha
  | cons x l ih =>
    intro h a ha
    rw [List.dropWhile_cons] at h
    split at h
    · next hp =>
      rcases List.mem_cons.mp ha with h' | h'
      · exact h' ▸ hp
      · exact ih h a h'
    · simp at h

theorem hashes_append {L tail : List Char} (ht : tail = [] ∨ ∃ r, tail = '\n' :: r) :
    (L ++ tail).takeWhile (· = '#') = L.takeWhile (· = '#') := by
  rcases ht with h | ⟨r, h⟩
  · simp [h]
  · subst h
    rw [List.takeWhile_append]
    split
    · next hlen =>
      rw [List.takeWhile_cons_of_neg (by simp)]
      rw [takeWhile_eq_self_of_length hlen]
      simp
    · rfl

theorem matchHeadingAt_not_hash {c : Char} {rest : List Char} (hc : c ≠ '#') :
    matchHeadingAt (c :: rest) = none := by
  unfold matchHeadingAt
  rw [List.takeWhile_cons_of_neg (by simp [hc])]
  simp

theorem matchHeadingAt_line_none {L tail : List Char} (hb : badLine L = false)
    (hh : lineIsHeading L = false) (ht : tail = [] ∨ ∃ r, tail = '\n' :: r) :
    matchHeadingAt (L ++ tail) = none := by
  unfold matchHeadingAt
  rw [hashes_append ht]
  by_cases hcond : 1 ≤ (L.takeWhile (· = '#')).length ∧ (L.takeWhile (· = '#')).length ≤ 6
  · rw [if_pos hcond]
    unfold badLine hashRun at hb
    unfold lineIsHeading hashRun at hh
    simp only [hcond.1, hcond.2, decide_True, Bool.true_and] at hb hh
    cases hd : L.drop (L.takeWhile (· = '#')).length with
    | nil => rw [hd] at hb; simp at hb
    | cons d ds =>
      rw [hd] at hh
      simp only at hh
      rw [List.drop_append_of_le_length (takeWhile_length_le L), hd]
      simp only [List.cons_append]
      rw [if_neg (by simp [hh])]
  · rw [if_neg hcond]

theorem matchHeadingAt_line_some {L tail : List Char} (hnl : '\n' ∉ L)
    (hb : badLine L = false) (hh : lineIsHeading L = true)
    (ht : tail = [] ∨ ∃ r, tail = '\n' :: r) :
    matchHeadingAt (L ++ tail) =
      some (L.takeWhile (· = '#'), (L.drop (hashRun L)).dropWhile isWS, tail) := by
  unfold matchHeadingAt
  rw [hashes_append ht]
  have hrw : (L.takeWhile (· = '#')).length = hashRun L := rfl
  rw [hrw]
  unfold lineIsHeading at hh
  unfold badLine at hb
  have hcond : 1 ≤ hashRun L ∧ hashRun L ≤ 6 := by
    by_contra hc
    rcases Decidable.not_and_iff_or_not.mp hc with h | h <;> simp [h] at hh
  simp only [hcond.1, hcond.2, decide_True, Bool.true_and] at hb hh
  rw [if_pos hcond]
  rw [List.drop_append_of_le_length (show hashRun L ≤ L.length from takeWhile_length_le L)]
  cases hd : L.drop (hashRun L) with
  | nil => rw [hd] at hh; simp at hh
  | cons d ds =>
    rw [hd] at hh hb
    simp only at hh
    simp only [List.cons_append]
    rw [if_pos hh]
    have hDne : (d :: ds).dropWhile isWS ≠ [] := by
      intro hnil
      have hall : (d :: ds).all isWS = true := List.all_eq_true.mpr (all_of_dropWhile_nil hnil)
      simp [hall] at hb
    have hDmem : ∀ a ∈ (d :: ds).dropWhile isWS, a ≠ '\n' := by
      intro a ha
      intro heq
      apply hnl
      subst heq
      exact List.mem_of_mem_drop (hd ▸ mem_of_mem_dropWhile ha)
    rw [← List.cons_append d ds tail]
    rw [List.dropWhile_append]
    rw [if_neg (by simpa using hDne)]
    rw [List.takeWhile_append_of_pos (by intro a ha; simpa using hDmem a ha)]
    rw [List.dropWhile_append_of_pos (by intro a ha; simpa using hDmem a ha)]
    rcases ht with h | ⟨r, h⟩ <;> subst h
    · simp
    · rw [List.takeWhile_cons_of_neg (p := fun x => decide (x ≠ '\n')) (a := '\n') (l := r) (by simp)]
      rw [List.dropWhile_cons_of_neg (p := fun x => decide (x ≠ '\n')) (a := '\n') (l := r) (by simp)]
      simp

theorem headingScan_copy {X r : List Char} (hnl : '\n' ∉ X) :
    headingScan (X ++ r) false = (X ++ (headingScan r false).1, (headingScan r false).2) := by
  induction X with
  | nil => simp
  | cons x X ih =>
    have hx : x ≠ '\n' := fun h => hnl (h ▸ List.mem_cons_self x X)
    rw [List.cons_append, headingScan_cons_false]
    rw [decide_eq_false hx]
    rw [ih (fun h => hnl (List.mem_cons_of_mem x h))]
    simp

theorem headingScan_newline (r : List Char) :
    headingScan ('\n' :: r) false = ('\n' :: (headingScan r true).1, (headingScan r true).2) := by
  rw [headingScan_cons_false]
  simp

theorem headingScan_plain_cons {L r : List Char} (hnl : '\n' ∉ L)
    (hb : badLine L = false) (hh : lineIsHeading L = false) :
    headingScan (L ++ '\n' :: r) true =
      (L ++ '\n' :: (headingScan r true).1, (headingScan r true).2) := by
  cases L with
  | nil =>
    rw [List.nil_append]
    rw [headingScan_cons_none (matchHeadingAt_not_hash (by simp))]
    simp
  | cons c L' =>
    have hm := matchHeadingAt_line_none hb hh (Or.inr ⟨r, rfl⟩)
    rw [List.cons_append] at hm ⊢
    rw [headingScan_cons_none hm]
    have hc : c ≠ '\n' := fun h => hnl (h ▸ List.mem_cons_self c L')
    rw [decide_eq_false hc]
    rw [headingScan_copy (fun h => hnl (List.mem_cons_of_mem c h))]
    rw [headingScan_newline]
    simp

theorem headingScan_plain_last {L : List Char} (hnl : '\n' ∉ L)
    (hb : badLine L = false) (hh : lineIsHeading L = false) :
    headingScan L true = (L, []) := by
  cases L with
  | nil => rfl
  | cons c L' =>
    have hm := matchHeadingAt_line_none hb hh (Or.inl rfl)
    rw [List.append_nil] at hm
    rw [headingScan_cons_none hm]
    have hc : c ≠ '\n' := fun h => hnl (h ▸ List.mem_cons_self c L')
    rw [decide_eq_false hc]
    have := headingScan_copy (X := L') (r := []) (fun h => hnl (List.mem_cons_of_mem c h))
    rw [List.append_nil] at this
    rw [this]
    simp [headingScan_nil]

theorem headingScan_headline_cons {L r : List Char} (hnl : '\n' ∉ L)
    (hb : badLine L = false) (hh : lineIsHeading L = true) :
    headingScan (L ++ '\n' :: r) true =
      ([], (L.takeWhile (· = '#'), (L.drop (hashRun L)).dropWhile isWS,
            '\n' :: (headingScan r true).1) :: (headingScan r true).2) := by
  cases L with
  | nil => simp [lineIsHeading, hashRun] at hh
  | cons c L' =>
    have hm := matchHeadingAt_line_some hnl hb hh (Or.inr ⟨r, rfl⟩)
    rw [List.cons_append] at hm ⊢
    rw [headingScan_cons_some hm]
    rw [headingScan_newline]

theorem headingScan_headline_last {L : List Char} (hnl : '\n' ∉ L)
    (hb : badLine L = false) (hh : lineIsHeading L = true) :
    headingScan L true =
      ([], [(L.takeWhile (· = '#'), (L.drop (hashRun L)).dropWhile isWS, [])]) := by
  cases L with
  | nil => simp [lineIsHeading, hashRun] at hh
  | cons c L' =>
    have hm := matchHeadingAt_line_some hnl hb hh (Or.inl rfl)
    rw [List.append_nil] at hm
    rw [headingScan_cons_some hm]
    simp [headingScan_nil]

/-! Blocks of consecutive non-heading lines, and the equivalence between the
regex scan and the line-based section description on documents without
whitespace-only heading lines. -/

theorem mem_of_mem_takeWhile {p : α → Bool} {a : α} :
    ∀ {l : List α}, a ∈ l.takeWhile p → a ∈ l := by
  intro l
  induction l with
  | nil => intro h; exact h
  | cons x l ih =>
    intro h
    rw [List.takeWhile_cons] at h
    split at h
    · rcases List.mem_cons.mp h with h' | h'
      · exact h' ▸ List.mem_cons_self x l
      · exact List.mem_cons_of_mem x (ih h')
    · simp at h

theorem dropWhile_head_not {p : α → Bool} :
    ∀ {l : List α} {a : α} {as : List α}, l.dropWhile p = a :: as → p a = false := by
  intro l
  induction l with
  | nil => intro a as h; simp at h
  | cons x l ih =>
    intro a as h
    rw [List.dropWhile_cons] at h
    split at h
    · exact ih h
    · next hp =>
      injection h with h1 _
      subst h1
      simpa using hp

theorem takeWhile_hash_replicate (l : List Char) :
    l.takeWhile (· = '#') = List.replicate (hashRun l) '#' := by
  rw [List.eq_replicate_iff]
  refine ⟨rfl, ?_⟩
  intro b hb
  have := List.mem_takeWhile_imp hb
  simpa using this

theorem flatten_map_newline {bs : List (List Char)} (h : bs ≠ []) :
    (bs.map (· ++ ['\n'])).flatten = pyJoin ['\n'] bs ++ ['\n'] := by
  induction bs with
  | nil => exact absurd rfl h
  | cons L bs ih =>
    cases bs with
    | nil => simp [pyJoin]
    | cons L2 bs2 =>
      rw [List.map_cons, List.flatten_cons, ih (by simp)]
      conv_rhs => rw [pyJoin_cons (by simp)]
      simp

theorem headingScan_block {bs more : List (List Char)}
    (hbs : ∀ L ∈ bs, '\n' ∉ L ∧ badLine L = false ∧ lineIsHeading L = false)
    (hm : more ≠ []) :
    headingScan (pyJoin ['\n'] (bs ++ more)) true =
      ((bs.map (· ++ ['\n'])).flatten ++ (headingScan (pyJoin ['\n'] more) true).1,
       (headingScan (pyJoin ['\n'] more) true).2) := by
  induction bs with
  | nil => simp
  | cons L bs ih =>
    have h1 := hbs L (List.mem_cons_self L bs)
    rw [List.cons_append, pyJoin_cons (by simp [hm]), List.append_assoc, List.singleton_append]
    rw [headingScan_plain_cons h1.1 h1.2.1 h1.2.2]
    rw [ih (fun M hM => hbs M (List.mem_cons_of_mem L hM))]
    simp

theorem headingScan_allplain {bs : List (List Char)}
    (hbs : ∀ L ∈ bs, '\n' ∉ L ∧ badLine L = false ∧ lineIsHeading L = false) :
    headingScan (pyJoin ['\n'] bs) true = (pyJoin ['\n'] bs, []) := by
  induction bs with
  | nil => simp [pyJoin, headingScan_nil]
  | cons L bs ih =>
    have h1 := hbs L (List.mem_cons_self L bs)
    cases bs with
    | nil => exact headingScan_plain_last h1.1 h1.2.1 h1.2.2
    | cons L2 bs2 =>
      rw [pyJoin_cons (by simp), List.append_assoc, List.singleton_append]
      rw [headingScan_plain_cons h1.1 h1.2.1 h1.2.2]
      rw [ih (fun M hM => hbs M (List.mem_cons_of_mem L hM))]

/-! The fuel-indexed line-based section extractor and its unfolding. -/

theorem specSecAux_nil : ∀ f, specSecAux f [] = []
  | 0 => rfl
  | _ + 1 => rfl

theorem specSecAux_fuel : ∀ f₁ f₂ : Nat, ∀ ls : List (List Char),
    ls.length ≤ f₁ → ls.length ≤ f₂ → specSecAux f₁ ls = specSecAux f₂ ls := by
  intro f₁
  induction f₁ with
  | zero =>
    intro f₂ ls h1 _
    have : ls = [] := by
      cases ls with
      | nil => rfl
      | cons L r => simp at h1
    subst this
    rw [specSecAux_nil, specSecAux_nil]
  | succ f ih =>
    intro f₂ ls h1 h2
    cases ls with
    | nil => rw [specSecAux_nil, specSecAux_nil]
    | cons L rest =>
      cases f₂ with
      | zero => simp at h2
      | succ g =>
        show specSecAux (f + 1) (L :: rest) = specSecAux (g + 1) (L :: rest)
        unfold specSecAux
        simp only [List.length_cons] at h1 h2
        split
        · rw [ih g (rest.dropWhile (fun M => !lineIsHeading M))
            (Nat.le_trans (dropWhile_length_le rest) (by omega))
            (Nat.le_trans (dropWhile_length_le rest) (by omega))]
        · rw [ih g rest (by omega) (by omega)]

theorem specSections_eq_scan (content : List Char) :
    specSections content = specScan (splitLines content) := rfl

theorem specScan_nil : specScan [] = [] := rfl

theorem specScan_cons_plain {L : List Char} {rest : List (List Char)}
    (hh : lineIsHeading L = false) : specScan (L :: rest) = specScan rest := by
  show specSecAux (rest.length + 1) (L :: rest) = _
  unfold specSecAux
  simp only [hh]
  rfl

theorem specScan_cons_head {L : List Char} {rest : List (List Char)}
    (hh : lineIsHeading L = true) :
    specScan (L :: rest) =
      (List.replicate (hashRun L) '#', strip (L.drop (hashRun L)),
       strip (pyJoin ['\n'] (rest.takeWhile (fun M => !lineIsHeading M))))
        :: specScan (rest.dropWhile (fun M => !lineIsHeading M)) := by
  show specSecAux (rest.length + 1) (L :: rest) = _
  unfold specSecAux
  simp only [hh, if_true]
  rw [specSecAux_fuel rest.length (rest.dropWhile (fun M => !lineIsHeading M)).length
    (rest.dropWhile (fun M => !lineIsHeading M)) (dropWhile_length_le rest) (Nat.le_refl _)]
  rfl

/-- Core equivalence: on a document none of whose lines is one to six `#`
followed by only whitespace, the regex-driven section scan agrees with the
line-based description (stripping title and body as the implementation
does). -/
theorem headingScan_spec : ∀ n : Nat, ∀ ls : List (List Char), ls.length ≤ n →
    (∀ L ∈ ls, '\n' ∉ L) → (∀ L ∈ ls, badLine L = false) →
    ((headingScan (pyJoin ['\n'] ls) true).2).map (fun s => (s.1, strip s.2.1, strip s.2.2)) =
      specScan ls := by
  intro n
  induction n with
  | zero =>
    intro ls hlen _ _
    have : ls = [] := by
      cases ls with
      | nil => rfl
      | cons a b => simp at hlen
    subst this
    simp [pyJoin, headingScan_nil, specScan_nil]
  | succ n ih =>
    intro ls hlen hnl hbad
    cases ls with
    | nil => simp [pyJoin, headingScan_nil, specScan_nil]
    | cons L rest =>
      simp only [List.length_cons] at hlen
      have hLnl := hnl L (List.mem_cons_self L rest)
      have hLb := hbad L (List.mem_cons_self L rest)
      by_cases hh : lineIsHeading L = true
      · rw [specScan_cons_head hh]
        cases rest with
        | nil =>
          rw [show pyJoin ['\n'] [L] = L from rfl]
          rw [headingScan_headline_last hLnl hLb hh]
          simp only [List.map_cons, List.map_nil]
          rw [takeWhile_hash_replicate L, strip_dropWhile]
          simp [specScan_nil, strip, pyJoin]
        | cons R rest' =>
          rw [pyJoin_cons (by simp), List.append_assoc, List.singleton_append]
          rw [headingScan_headline_cons hLnl hLb hh]
          have hmem : ∀ M ∈ R :: rest', '\n' ∉ M ∧ badLine M = false := fun M hM =>
            ⟨hnl M (List.mem_cons_of_mem L hM), hbad M (List.mem_cons_of_mem L hM)⟩
          cases hmo : (R :: rest').dropWhile (fun M => !lineIsHeading M) with
          | nil =>
            have hall : ∀ M ∈ R :: rest', '\n' ∉ M ∧ badLine M = false ∧
                lineIsHeading M = false := by
              intro M hM
              have := all_of_dropWhile_nil hmo M hM
              exact ⟨(hmem M hM).1, (hmem M hM).2, by simpa using this⟩
            rw [headingScan_allplain hall]
            rw [specScan_nil]
            rw [takeWhile_eq_self_of_all (l := R :: rest') (all_of_dropWhile_nil hmo)]
            dsimp only
            simp only [List.map_cons, List.map_nil]
            rw [takeWhile_hash_replicate L, strip_dropWhile]
            have hstr : strip ('\n' :: pyJoin ['\n'] (R :: rest')) =
                strip (pyJoin ['\n'] (R :: rest')) := by
              have := strip_ws_left (a := ['\n']) (s := pyJoin ['\n'] (R :: rest'))
                (by intro c hc; simp at hc; simp [hc, isWS])
              simpa using this
            rw [hstr]
          | cons M0 more' =>
            have hM0head : lineIsHeading M0 = true := by
              have := dropWhile_head_not hmo
              simpa using this
            have hM0mem : M0 ∈ R :: rest' := by
              apply mem_of_mem_dropWhile (p := fun M => !lineIsHeading M)
              rw [hmo]
              exact List.mem_cons_self M0 more'
            have hbsp : ∀ M ∈ (R :: rest').takeWhile (fun M => !lineIsHeading M),
                '\n' ∉ M ∧ badLine M = false ∧ lineIsHeading M = false := by
              intro M hM
              have hMmem := mem_of_mem_takeWhile hM
              have := List.mem_takeWhile_imp hM
              exact ⟨(hmem M hMmem).1, (hmem M hMmem).2, by simpa using this⟩
            have hscan : headingScan (pyJoin ['\n'] (R :: rest')) true =
                ((((R :: rest').takeWhile (fun M => !lineIsHeading M)).map (· ++ ['\n'])).flatten
                  ++ (headingScan (pyJoin ['\n'] (M0 :: more')) true).1,
                 (headingScan (pyJoin ['\n'] (M0 :: more')) true).2) := by
              conv_lhs =>
                rw [← List.takeWhile_append_dropWhile (fun M => !lineIsHeading M) (R :: rest'),
                  hmo]
              exact headingScan_block hbsp (by simp)
            have hpre : (headingScan (pyJoin ['\n'] (M0 :: more')) true).1 = [] := by
              cases more' with
              | nil =>
                rw [show pyJoin ['\n'] [M0] = M0 from rfl]
                rw [headingScan_headline_last (hmem M0 hM0mem).1 (hmem M0 hM0mem).2 hM0head]
              | cons M1 more2 =>
                rw [pyJoin_cons (by simp), List.append_assoc, List.singleton_append]
                rw [headingScan_headline_cons (hmem M0 hM0mem).1 (hmem M0 hM0mem).2 hM0head]
            have h1 : (headingScan (pyJoin ['\n'] (R :: rest')) true).1 =
                (((R :: rest').takeWhile (fun M => !lineIsHeading M)).map (· ++ ['\n'])).flatten := by
              rw [hscan, hpre]
              simp
            have h2 : (headingScan (pyJoin ['\n'] (R :: rest')) true).2 =
                (headingScan (pyJoin ['\n'] (M0 :: more')) true).2 := by
              rw [hscan]
            rw [h1, h2]
            have htail : ((headingScan (pyJoin ['\n'] (M0 :: more')) true).2).map
                (fun s => (s.1, strip s.2.1, strip s.2.2)) = specScan (M0 :: more') := by
              apply ih
              · have hle : (M0 :: more').length ≤ (R :: rest').length := by
                  rw [← hmo]
                  exact dropWhile_length_le _
                simp only [List.length_cons] at hle hlen ⊢
                omega
              · intro M hM
                exact (hmem M (mem_of_mem_dropWhile (hmo ▸ hM))).1
              · intro M hM
                exact (hmem M (mem_of_mem_dropWhile (hmo ▸ hM))).2
            simp only [List.map_cons]
            rw [htail]
            rw [takeWhile_hash_replicate L, strip_dropWhile]
            cases hbs0 : (R :: rest').takeWhile (fun M => !lineIsHeading M) with
            | nil => rfl
            | cons B bs' =>
              rw [flatten_map_newline (by simp)]
              have e1 : ('\n' :: (pyJoin ['\n'] (B :: bs') ++ ['\n'])) =
                  ['\n'] ++ (pyJoin ['\n'] (B :: bs') ++ ['\n']) := rfl
              rw [e1, strip_ws_left (by intro c hc; simp at hc; simp [hc, isWS]),
                strip_ws_right (by intro c hc; simp at hc; simp [hc, isWS])]
      · have hh' : lineIsHeading L = false := by simpa using hh
        rw [specScan_cons_plain hh']
        cases rest with
        | nil =>
          rw [show pyJoin ['\n'] [L] = L from rfl]
          rw [headingScan_plain_last hLnl hLb hh']
          simp [specScan_nil]
        | cons R rest' =>
          rw [pyJoin_cons (by simp), List.append_assoc, List.singleton_append]
          rw [headingScan_plain_cons hLnl hLb hh']
          exact ih (R :: rest') (by simp only [List.length_cons] at hlen ⊢; omega)
            (fun M hM => hnl M (List.mem_cons_of_mem L hM))
            (fun M hM => hbad M (List.mem_cons_of_mem L hM))

/-- On documents without whitespace-only heading lines, `sections` is the
line-based section list. -/
theorem sections_eq_specSections {content : List Char}
    (hb : ∀ L ∈ splitLines content, badLine L = false) :
    sections content = specSections content := by
  show (headingSplit content).2.map _ = _
  rw [headingSplit_eq_scan, specSections_eq_scan]
  have hjoin := pyJoin_splitLines content
  conv_lhs => rw [← hjoin]
  exact headingScan_spec (splitLines content).length (splitLines content) (Nat.le_refl _)
    (noNL_splitLines content) hb

/-! Structure of `include_file_sections` around the conflict check, and the
hash-run facts carried by every parsed section. -/

theorem include_file_sections_ok {content : List Char} {incl excl : List (List Char)}
    (hd : ∀ t ∈ incl.map strLower, t ∉ excl.map strLower) :
    include_file_sections content incl excl =
      Except.ok (pyJoin ['\n', '\n']
        ((keptSections content incl excl).map renderSection
          ++ (linkDefs content).map renderLinkDef)) := by
  unfold include_file_sections
  rw [if_pos (List.filter_eq_nil_iff.mpr (fun t ht => by simp [hd t ht]))]

theorem include_file_sections_error {content : List Char} {incl excl : List (List Char)}
    {t : List Char} (ht : t ∈ incl.map strLower) (ht2 : t ∈ excl.map strLower) :
    include_file_sections content incl excl =
      Except.error ((incl.map strLower).filter
        (fun u => decide (u ∈ excl.map strLower))) := by
  unfold include_file_sections
  rw [if_neg]
  intro hnil
  have := List.filter_eq_nil_iff.mp hnil t ht
  simp [ht2] at this

theorem sections_plain_nil {content : List Char}
    (hb : ∀ L ∈ splitLines content, badLine L = false)
    (hh : ∀ L ∈ splitLines content, lineIsHeading L = false) :
    sections content = [] := by
  show (headingSplit content).2.map _ = []
  rw [headingSplit_eq_scan]
  conv_lhs => rw [← pyJoin_splitLines content]
  rw [headingScan_allplain (fun L hL => ⟨noNL_splitLines content L hL, hb L hL, hh L hL⟩)]
  simp

theorem matchHeadingAt_hashes {s h t a : List Char} (hm : matchHeadingAt s = some (h, t, a)) :
    h = List.replicate h.length '#' ∧ 1 ≤ h.length ∧ h.length ≤ 6 := by
  unfold matchHeadingAt at hm
  split at hm
  · next hn =>
    split at hm
    · exact absurd hm (by simp)
    · split at hm
      · simp only [Option.some.injEq, Prod.mk.injEq] at hm
        have hh : h = s.takeWhile (· = '#') := hm.1.symm
        subst hh
        refine ⟨?_, hn.1, hn.2⟩
        have := takeWhile_hash_replicate s
        rw [this]
        simp [hashRun]
      · exact absurd hm (by simp)
  · exact absurd hm (by simp)

theorem headingScan_hashes : ∀ n : Nat, ∀ s : List Char, ∀ b : Bool, s.length ≤ n →
    ∀ x ∈ (headingScan s b).2,
      x.1 = List.replicate x.1.length '#' ∧ 1 ≤ x.1.length ∧ x.1.length ≤ 6 := by
  intro n
  induction n with
  | zero =>
    intro s b hlen x hx
    have : s = [] := by
      cases s with
      | nil => rfl
      | cons c r => simp at hlen
    subst this
    rw [headingScan_nil] at hx
    simp at hx
  | succ n ih =>
    intro s b hlen x hx
    cases s with
    | nil => rw [headingScan_nil] at hx; simp at hx
    | cons c rest =>
      simp only [List.length_cons] at hlen
      cases b with
      | false =>
        rw [headingScan_cons_false] at hx
        exact ih rest _ (by omega) x hx
      | true =>
        cases hm : matchHeadingAt (c :: rest) with
        | none =>
          rw [headingScan_cons_none hm] at hx
          exact ih rest _ (by omega) x hx
        | some m =>
          obtain ⟨h, t, a⟩ := m
          rw [headingScan_cons_some hm] at hx
          have hal := matchHeadingAt_length hm
          simp only [List.length_cons] at hal
          rcases List.mem_cons.mp hx with h' | h'
          · subst h'
            exact matchHeadingAt_hashes hm
          · exact ih a false (by omega) x h'

theorem downshiftScan_join : ∀ n : Nat, ∀ s : List Char, ∀ b : Bool, s.length ≤ n →
    downshiftScan s b =
      (headingScan s b).1 ++
        ((headingScan s b).2.map (fun x =>
          (if x.1.length < 6 then '#' :: x.1 else x.1) ++ ' ' :: x.2.1 ++ x.2.2)).flatten := by
  intro n
  induction n with
  | zero =>
    intro s b hlen
    have : s = [] := by
      cases s with
      | nil => rfl
      | cons c r => simp at hlen
    subst this
    simp [downshiftScan_nil, headingScan_nil]
  | succ n ih =>
    intro s b hlen
    cases s with
    | nil => simp [downshiftScan_nil, headingScan_nil]
    | cons c rest =>
      simp only [List.length_cons] at hlen
      cases b with
      | false =>
        rw [downshiftScan_cons_false, headingScan_cons_false]
        rw [ih rest _ (by omega)]
        simp
      | true =>
        cases hm : matchHeadingAt (c :: rest) with
        | none =>
          rw [downshiftScan_cons_none hm, headingScan_cons_none hm]
          rw [ih rest _ (by omega)]
          simp
        | some m =>
          obtain ⟨h, t, a⟩ := m
          rw [downshiftScan_cons_some hm, headingScan_cons_some hm]
          have hal := matchHeadingAt_length hm
          simp only [List.length_cons] at hal
          rw [ih a false (by omega)]
          simp

theorem keptSections_eq_filter_spec (content : List Char) (incl excl : List (List Char)) :
    keptSections content incl excl =
      (sections content).filter (fun s => decide (keepSpec incl excl s.2.1)) := by
  unfold keptSections
  apply List.filter_congr
  intro s _
  by_cases hexc : strLower s.2.1 ∈ excl.map strLower
  · simp [keepSpec, hexc]
  · by_cases hinc : incl = []
    · simp [keepSpec, hinc, hexc]
    · by_cases hmem : strLower s.2.1 ∈ incl.map strLower
      · simp [keepSpec, hinc, hmem, hexc]
      · simp [keepSpec, hinc, hmem, hexc]

theorem keptSections_empty (content : List Char) :
    keptSections content [] [] = sections content := by
  unfold keptSections
  simp

theorem pyJoin_append {q : List Char} {A B : List (List Char)} (hA : A ≠ []) (hB : B ≠ []) :
    pyJoin q (A ++ B) = pyJoin q A ++ q ++ pyJoin q B := by
  induction A with
  | nil => exact absurd rfl hA
  | cons a A ih =>
    cases A with
    | nil =>
      rw [show ([a] : List (List Char)) ++ B = a :: B from rfl, pyJoin_cons hB]
      rfl
    | cons a2 A2 =>
      rw [List.cons_append, pyJoin_cons (by simp), pyJoin_cons (by simp)]
      rw [ih (by simp)]
      simp

theorem occursIn_self (d : List Char) : occursIn d d := ⟨[], [], by simp⟩

theorem occursIn_append_left {d s : List Char} (u : List Char) (h : occursIn d s) :
    occursIn d (u ++ s) := by
  obtain ⟨a, b, rfl⟩ := h
  exact ⟨u ++ a, b, by simp⟩

theorem occursIn_append_right {d s : List Char} (v : List Char) (h : occursIn d s) :
    occursIn d (s ++ v) := by
  obtain ⟨a, b, rfl⟩ := h
  exact ⟨a, b ++ v, by simp⟩

theorem occursIn_mem_pyJoin {q d x : List Char} {t : List (List Char)}
    (hx : x ∈ t) (hd : occursIn d x) : occursIn d (pyJoin q t) := by
  induction t with
  | nil => simp at hx
  | cons y t ih =>
    rcases List.mem_cons.mp hx with h | h
    · subst h
      cases t with
      | nil => exact hd
      | cons y2 t2 =>
        rw [pyJoin_cons (by simp)]
        rw [List.append_assoc]
        exact occursIn_append_right _ hd
    · have ht : t ≠ [] := by
        intro h0
        rw [h0] at h
        simp at h
      rw [pyJoin_cons ht, List.append_assoc]
      exact occursIn_append_left _ (occursIn_append_left _ (ih h))

/-! Claim theorems. -/

/-- C1: for every markdown input and filter lists whose lower-cased sets are
disjoint, `include_file_sections` succeeds; a parsed section is kept iff
(the inclusion set is empty or the section's lower-cased title is in the
lower-cased inclusion set) and its lower-cased title is not in the
lower-cased exclusion set; the kept sections appear in the output in their
original document order (they form an order-preserving sublist of the parsed
sections, rendered in sequence). -/
theorem include_file_sections_keep_iff (content : List Char) (incl excl : List (List Char))
    (hd : ∀ t ∈ incl.map strLower, t ∉ excl.map strLower) :
    include_file_sections content incl excl =
      Except.ok (pyJoin ['\n', '\n']
        (((sections content).filter (fun s => decide (keepSpec incl excl s.2.1))).map
            renderSection
          ++ (linkDefs content).map renderLinkDef))
    ∧ List.Sublist
        ((sections content).filter (fun s => decide (keepSpec incl excl s.2.1)))
        (sections content) :=
  ⟨by rw [include_file_sections_ok hd, keptSections_eq_filter_spec], List.filter_sublist _⟩

/-- C1 witness: two sections both titled `Note` with `include=["Note"]` are
both kept, in original order. -/
theorem include_file_sections_keep_iff_witness :
    include_file_sections "# Note\n\na\n\n# Note\n\nb".toList ["Note".toList] [] =
      Except.ok "# Note\n\na\n\n# Note\n\nb".toList := by
  have h := include_file_sections_keep_iff "# Note\n\na\n\n# Note\n\nb".toList
    ["Note".toList] [] (by intro u hu h2; simp at h2)
  rw [h.1]
  rfl

/-- C2: `include_file_sections` raises a configuration error iff the
lower-cased inclusion and exclusion sets intersect; when it raises, the
error names exactly the offending lower-cased titles and no ok output is
produced. -/
theorem include_file_sections_conflict (content : List Char) (incl excl : List (List Char)) :
    ((∃ e, include_file_sections content incl excl = Except.error e) ↔
      ∃ t, t ∈ incl.map strLower ∧ t ∈ excl.map strLower)
    ∧ ∀ e, include_file_sections content incl excl = Except.error e →
        (∀ t, t ∈ e ↔ (t ∈ incl.map strLower ∧ t ∈ excl.map strLower))
        ∧ ¬ ∃ o, include_file_sections content incl excl = Except.ok o := by
  by_cases hc : ∃ t, t ∈ incl.map strLower ∧ t ∈ excl.map strLower
  · obtain ⟨t, h1, h2⟩ := hc
    have herr := @include_file_sections_error content incl excl _ h1 h2
    constructor
    · exact ⟨fun _ => ⟨t, h1, h2⟩, fun _ => ⟨_, herr⟩⟩
    · intro e he
      rw [herr] at he
      have he2 := Except.error.inj he
      subst he2
      constructor
      · intro u
        rw [List.mem_filter]
        simp
      · rintro ⟨o, ho⟩
        rw [herr] at ho
        simp at ho
  · have hd : ∀ u ∈ incl.map strLower, u ∉ excl.map strLower := fun u hu h2 => hc ⟨u, hu, h2⟩
    have hok := @include_file_sections_ok content incl excl hd
    constructor
    · constructor
      · rintro ⟨e, he⟩
        rw [hok] at he
        simp at he
      · intro h
        exact absurd h hc
    · intro e he
      rw [hok] at he
      simp at he

/-- C2 witness: with `include=["A"]` and `exclude=["a"]`, a configuration
error is raised naming the lower-cased title `a`. -/
theorem include_file_sections_conflict_witness :
    ∃ e, include_file_sections "text".toList ["A".toList] ["a".toList] = Except.error e
      ∧ "a".toList ∈ e := by
  have h := include_file_sections_conflict "text".toList ["A".toList] ["a".toList]
  obtain ⟨e, he⟩ := h.1.mpr ⟨"a".toList, by decide, by decide⟩
  exact ⟨e, he, ((h.2 e he).1 "a".toList).mpr ⟨by decide, by decide⟩⟩

/-- C3 counterexample: in `"[x]:\n[y]: z"` the line `[y]: z` matches the
link-definition pattern, but the multiline scan absorbs it as the target of
the preceding `[x]:` line (the `\s*` crosses the line break), so no
`[y]: z` pair is collected and appended. -/
theorem linkdef_line_swallowed :
    lineIsLinkDef "[y]: z".toList = true
    ∧ "[y]: z".toList ∈ splitLines "[x]:\n[y]: z".toList
    ∧ linkDefs "[x]:\n[y]: z".toList = [("[x]".toList, "[y]: z".toList)]
    ∧ ("[y]".toList, "z".toList) ∉ linkDefs "[x]:\n[y]: z".toList :=
  ⟨rfl, by decide, rfl, by decide⟩

/-- C3 (amended): every (label, target) pair collected by the multiline
left-to-right non-overlapping scan of the pattern — whose matches may cross
line breaks, so a definition line can be absorbed by a preceding one —
appears in the output as `label: target`, appended after all kept sections,
in scan order, regardless of which sections the filters keep. -/
theorem include_file_sections_appends_linkdefs (content : List Char)
    (incl excl : List (List Char))
    (hd : ∀ t ∈ incl.map strLower, t ∉ excl.map strLower) :
    ∃ parts, include_file_sections content incl excl =
      Except.ok (pyJoin ['\n', '\n'] (parts ++ (linkDefs content).map renderLinkDef)) :=
  ⟨_, include_file_sections_ok hd⟩

/-- C3 witness: the structure theorem applied to a concrete document. -/
theorem include_file_sections_appends_linkdefs_witness :
    ∃ parts, include_file_sections "# A\n\ntext\n\n[x]: y".toList [] [] =
      Except.ok (pyJoin ['\n', '\n']
        (parts ++ (linkDefs "# A\n\ntext\n\n[x]: y".toList).map renderLinkDef)) :=
  include_file_sections_appends_linkdefs _ [] [] (by intro u hu; simp at hu)

/-- C4: filtering with empty include and exclude lists is the identity on
the section sequence: the output is all parsed sections, in original order,
followed by the relocated link definitions. -/
theorem include_file_sections_empty_filters (content : List Char) :
    include_file_sections content [] [] =
      Except.ok (pyJoin ['\n', '\n']
        ((sections content).map renderSection ++ (linkDefs content).map renderLinkDef)) := by
  rw [include_file_sections_ok (by intro u hu; simp at hu), keptSections_empty]

/-- C5 counterexample: on `"# \nfoo"` the heading pattern's `\s+` crosses
the line break, so the parsed section has title `foo` (taken from the next
line) and empty body, while the claim's line-based reading gives title `""`
and body `foo`. -/
theorem sections_newline_gap :
    sections "# \nfoo".toList = [("#".toList, "foo".toList, [])]
    ∧ specSections "# \nfoo".toList = [("#".toList, [], "foo".toList)]
    ∧ sections "# \nfoo".toList ≠ specSections "# \nfoo".toList :=
  ⟨rfl, rfl, by decide⟩

/-- C5 (amended): on documents none of whose lines consists of one to six
`#` followed by only whitespace, every heading match is as the claim
describes: the parsed sections are exactly the line-based ones (level =
number of `#`, title = trimmed remainder of the heading line, body = all
text up to the next heading line of any level or the end, both stripped),
and each parsed section carries one to six `#` and renders as
`hashes ++ " " ++ title ++ blank line ++ body`. -/
theorem sections_line_description (content : List Char)
    (hb : ∀ L ∈ splitLines content, badLine L = false) :
    sections content = specSections content ∧
      ∀ s ∈ sections content,
        s.1 = List.replicate s.1.length '#' ∧ 1 ≤ s.1.length ∧ s.1.length ≤ 6 ∧
        renderSection s = s.1 ++ ' ' :: s.2.1 ++ '\n' :: '\n' :: s.2.2 := by
  refine ⟨sections_eq_specSections hb, ?_⟩
  intro s hs
  unfold sections at hs
  rw [List.mem_map] at hs
  obtain ⟨t, ht, rfl⟩ := hs
  have hha := headingScan_hashes content.length content true (Nat.le_refl _) t
    (by rw [← headingSplit_eq_scan]; exact ht)
  exact ⟨hha.1, hha.2.1, hha.2.2, rfl⟩

/-- C5 witness: the description theorem applied to a concrete document. -/
theorem sections_line_description_witness :
    sections "# T\n\nbody".toList = specSections "# T\n\nbody".toList :=
  (sections_line_description "# T\n\nbody".toList (by decide)).1

/-- C6 counterexample: the filter entry `"A "` and the section title `A`
have equal trimmed lower-cased forms, yet with `include=["A "]` the section
`A` is dropped: the implementation lower-cases but does not trim filter
entries. -/
theorem title_trim_asymmetry :
    strLower (strip "A ".toList) = strLower (strip "A".toList)
    ∧ sections "# A\n\nbody".toList = [("#".toList, "A".toList, "body".toList)]
    ∧ include_file_sections "# A\n\nbody".toList ["A ".toList] [] = Except.ok [] :=
  ⟨rfl, rfl, rfl⟩

/-- C6 (amended): title matching lower-cases both sides but trims only the
section title (at parse time), not the filter entry: a parsed section is
kept iff the inclusion list is empty or some inclusion entry's lower-cased
(untrimmed) form equals the section's trimmed lower-cased title, and no
exclusion entry's lower-cased form does; no normalization beyond
case-folding is applied. -/
theorem title_match_characterisation (content : List Char) (incl excl : List (List Char))
    (s : List Char × List Char × List Char) (hs : s ∈ (headingSplit content).2) :
    (s.1, strip s.2.1, strip s.2.2) ∈ keptSections content incl excl ↔
      ((incl = [] ∨ ∃ e ∈ incl, strLower e = strLower (strip s.2.1)) ∧
        ¬ ∃ e ∈ excl, strLower e = strLower (strip s.2.1)) := by
  unfold keptSections
  rw [List.mem_filter]
  have hmem : (s.1, strip s.2.1, strip s.2.2) ∈ sections content := by
    unfold sections
    exact List.mem_map_of_mem _ hs
  simp only [hmem, true_and]
  simp [List.mem_map, List.map_eq_nil_iff]

/-- C6 witness: the lower-cased entry `a` matches the parsed section titled
`A`, which is therefore kept. -/
theorem title_match_characterisation_witness :
    ("#".toList, "A".toList, "body".toList) ∈
      keptSections "# A\n\nbody".toList ["a".toList] [] := by
  have h := title_match_characterisation "# A\n\nbody".toList ["a".toList] []
    ("#".toList, "A".toList, "\n\nbody".toList) (by decide)
  exact h.mpr ⟨Or.inr ⟨"a".toList, by decide, by decide⟩, by rintro ⟨e, he, _⟩; simp at he⟩

/-- C7: on the concrete input `"# A\n\nfoo\n\n## B\n\nbar\n\n[x]: http://y"`
with `include=[]` and `exclude=["B"]` the output is section `A` with body
`foo` followed by the link definition `[x]: http://y`. -/
theorem include_file_sections_example :
    include_file_sections "# A\n\nfoo\n\n## B\n\nbar\n\n[x]: http://y".toList
      [] ["B".toList] = Except.ok "# A\n\nfoo\n\n[x]: http://y".toList := rfl

/-- C8 counterexample: `"##\nfoo"` contains no heading line (neither of its
lines matches the heading pattern on its own), yet the multiline scan reads
`##` + newline + `foo` as a heading of level 2 titled `foo`, so the section
set is not empty and the output is not only link definitions. -/
theorem sections_without_heading_line :
    (∀ L ∈ splitLines "##\nfoo".toList, lineIsHeading L = false)
    ∧ sections "##\nfoo".toList = [("##".toList, "foo".toList, [])]
    ∧ include_file_sections "##\nfoo".toList [] [] = Except.ok "## foo\n\n".toList :=
  ⟨by decide, rfl, rfl⟩

/-- C8 (amended): on input none of whose lines is a heading line or one to
six `#` followed by only whitespace, `include_file_sections` does not fail:
the section set is empty and, for every non-conflicting filter pair, the
output is exactly the collected link-reference definitions (empty when there
are none). -/
theorem no_heading_lines_only_linkdefs (content : List Char)
    (hh : ∀ L ∈ splitLines content, lineIsHeading L = false ∧ badLine L = false) :
    sections content = [] ∧
      ∀ incl excl : List (List Char), (∀ u ∈ incl.map strLower, u ∉ excl.map strLower) →
        include_file_sections content incl excl =
          Except.ok (pyJoin ['\n', '\n'] ((linkDefs content).map renderLinkDef)) := by
  have hsec : sections content = [] :=
    sections_plain_nil (fun L hL => (hh L hL).2) (fun L hL => (hh L hL).1)
  refine ⟨hsec, ?_⟩
  intro incl excl hd
  rw [include_file_sections_ok hd]
  unfold keptSections
  rw [hsec]
  rfl

/-- C8 witness: a document of plain text and one link definition. -/
theorem no_heading_lines_only_linkdefs_witness :
    sections "text\n\n[x]: y".toList = []
    ∧ include_file_sections "text\n\n[x]: y".toList [] [] =
        Except.ok (pyJoin ['\n', '\n']
          ((linkDefs "text\n\n[x]: y".toList).map renderLinkDef)) := by
  have h := no_heading_lines_only_linkdefs "text\n\n[x]: y".toList (by decide)
  exact ⟨h.1, h.2 [] [] (by intro u hu; simp at hu)⟩

/-- C9: link-definition lines are not removed from section bodies: when a
collected definition occurs (in its rendered `label: target` form) inside
the body of a kept section, the output splits as `u ++ v` with the
definition occurring in `u` (inside the rendered sections) and again in `v`
(the appended definition list). -/
theorem linkdef_in_kept_body_twice (content : List Char) (incl excl : List (List Char))
    (l t : List Char) (hmem : (l, t) ∈ linkDefs content)
    (hsec : ∃ s ∈ keptSections content incl excl, occursIn (l ++ ':' :: ' ' :: t) s.2.2)
    (hd : ∀ u ∈ incl.map strLower, u ∉ excl.map strLower) :
    ∃ u v, include_file_sections content incl excl = Except.ok (u ++ v)
      ∧ occursIn (l ++ ':' :: ' ' :: t) u ∧ occursIn (l ++ ':' :: ' ' :: t) v := by
  obtain ⟨s, hsk, hocc⟩ := hsec
  have hA : (keptSections content incl excl).map renderSection ≠ [] := by
    intro h0
    rw [List.map_eq_nil_iff] at h0
    rw [h0] at hsk
    simp at hsk
  have hB : (linkDefs content).map renderLinkDef ≠ [] := by
    intro h0
    rw [List.map_eq_nil_iff] at h0
    rw [h0] at hmem
    simp at hmem
  refine ⟨pyJoin ['\n', '\n'] ((keptSections content incl excl).map renderSection),
    '\n' :: '\n' :: pyJoin ['\n', '\n'] ((linkDefs content).map renderLinkDef), ?_, ?_, ?_⟩
  · rw [include_file_sections_ok hd, pyJoin_append hA hB]
    simp
  · refine occursIn_mem_pyJoin (List.mem_map_of_mem renderSection hsk) ?_
    exact occursIn_append_left (s.1 ++ (' ' :: s.2.1))
      (occursIn_append_left ['\n', '\n'] hocc)
  · exact occursIn_append_left ['\n', '\n']
      (occursIn_mem_pyJoin (List.mem_map_of_mem renderLinkDef hmem) (occursIn_self _))

/-- C9 witness: the definition `[x]: y` sits in the body of the kept section
`A` and is also re-appended. -/
theorem linkdef_in_kept_body_twice_witness :
    ∃ u v, include_file_sections "# A\n\n[x]: y".toList [] [] = Except.ok (u ++ v)
      ∧ occursIn ("[x]".toList ++ ':' :: ' ' :: "y".toList) u
      ∧ occursIn ("[x]".toList ++ ':' :: ' ' :: "y".toList) v :=
  linkdef_in_kept_body_twice "# A\n\n[x]: y".toList [] [] "[x]".toList "y".toList
    (by decide)
    ⟨("#".toList, "A".toList, "[x]: y".toList), by decide, occursIn_self _⟩
    (by intro u hu; simp at hu)

/-- C10: `downshift_md_heading` maps every heading match of level `n`
(`1 ≤ n ≤ 6`) to a heading of level `min (n+1) 6` with the same captured
title, and copies all non-matched text unchanged; in particular level-6
headings never become level 7. -/
theorem downshift_md_heading_spec (md : List Char) :
    downshift_md_heading md =
      (headingSplit md).1 ++
        ((headingSplit md).2.map (fun s =>
          List.replicate (min (s.1.length + 1) 6) '#' ++ ' ' :: s.2.1 ++ s.2.2)).flatten
    ∧ ∀ s ∈ (headingSplit md).2, 1 ≤ s.1.length ∧ s.1.length ≤ 6 := by
  constructor
  · rw [downshift_eq_scan, headingSplit_eq_scan,
      downshiftScan_join md.length md true (Nat.le_refl _)]
    congr 1
    apply congrArg
    apply List.map_congr_left
    intro x hx
    have hf := headingScan_hashes md.length md true (Nat.le_refl _) x hx
    by_cases h6 : x.1.length < 6
    · rw [if_pos h6, show min (x.1.length + 1) 6 = x.1.length + 1 from by omega,
        List.replicate_succ]
      conv_lhs => rw [hf.1]
    · rw [if_neg h6, show min (x.1.length + 1) 6 = 6 from by omega]
      have h66 : x.1.length = 6 := Nat.le_antisymm hf.2.2 (by omega)
      conv_lhs => rw [hf.1]
      rw [h66]
  · intro s hs
    have hf := headingScan_hashes md.length md true (Nat.le_refl _) s
      (by rw [← headingSplit_eq_scan]; exact hs)
    exact ⟨hf.2.1, hf.2.2⟩
